import Mathlib

/-!
Discovery and execution of SQL migrations in go-sqlite-migrator.

A shallow embedding of `migrate.go` (`readMigrations`, `Run`) together with the
parts of its environment the program talks to: an `io/fs` file tree walked by
`fs.WalkDir`, and a `database/sql` handle on a SQLite database with
transactions.
-/

namespace Migrator

/-! ## Strings -/

/-- Go strings are byte sequences; a byte is kept as a natural number. -/
abbrev Bytes := List Nat

/-- The bytes of an ASCII string literal. -/
def ascii (s : String) : Bytes := s.toList.map Char.toNat

/-- Go's `<` on strings: byte-wise lexicographic comparison. -/
def strLess : Bytes → Bytes → Bool
  | [], [] => false
  | [], _ :: _ => true
  | _ :: _, [] => false
  | a :: as, b :: bs => if a < b then true else if b < a then false else strLess as bs

/-- Go's `strings.HasSuffix`. -/
def hasSuffix (s suffix : Bytes) : Bool :=
  suffix.length ≤ s.length && s.drop (s.length - suffix.length) == suffix

/-- The byte `'/'`. -/
def slash : Nat := 47

/-- The byte `'.'`. -/
def dot : Nat := 46

/-- The string `".sql"`. -/
def sqlExt : Bytes := [46, 115, 113, 108]

/-- The loop of `filepath.Ext`, run over the bytes of the path from the last
one backwards; `suffix` is the part of the path already scanned. -/
def extLoop : Bytes → Bytes → Bytes
  | [], _ => []
  | c :: before, suffix =>
    if c = slash then []
    else if c = dot then c :: suffix
    else extLoop before (c :: suffix)

/-- Go's `filepath.Ext`: the suffix beginning at the final dot in the final
element of the path, empty if there is no dot. -/
def Ext (path : Bytes) : Bytes := extLoop path.reverse []

/-- Go's `path.Join` as `fs.WalkDir` uses it, on a directory path that is
already clean and an entry name: entries of the root `"."` keep their name. -/
def joinPath (dir name : Bytes) : Bytes :=
  if dir = [dot] then name else dir ++ slash :: name

/-! ## The file tree (`fs.FS`) -/

/-- An entry of the file tree, which is also the `fs.DirEntry` that describes
it. A file carries what reading it gives; a directory carries what `ReadDir`
gives for it: the entries read and the error, if any. -/
inductive Node where
  | file (name : Bytes) (data : Except String Bytes)
  | dir (name : Bytes) (readErr : Option String) (children : List Node)

/-- The method `DirEntry.Name`. -/
def Node.name : Node → Bytes
  | .file name _ => name
  | .dir name _ _ => name

/-- The method `DirEntry.IsDir`. -/
def Node.isDir : Node → Bool
  | .file _ _ => false
  | .dir _ _ _ => true

/-- A file system handle: the outcome of `Stat` on the root `"."` and the
root directory. -/
structure FS where
  statErr : Option String
  root : Node

/-- The callback type `fs.WalkDirFunc`, with the variables the closure
captures passed as state. The callbacks of this program never return
`fs.SkipDir` or `fs.SkipAll`. -/
abbrev WalkDirFunc (σ : Type) := Bytes → Option Node → Option String → σ → Except String σ

mutual
/-- The recursive helper `walkDir` of `io/fs`. -/
def walkDir {σ : Type} (fn : WalkDirFunc σ) (name : Bytes) (d : Node) (st : σ) :
    Except String σ :=
  match fn name (some d) none st with
  | .error e => .error e
  | .ok st1 =>
    match d with
    | .file _ _ => .ok st1
    | .dir _ readErr children =>
      match readErr with
      | some e =>
        match fn name (some d) (some e) st1 with
        | .error e1 => .error e1
        | .ok st2 => walkEntries fn name children st2
      | none => walkEntries fn name children st1
/-- The loop of `walkDir` over the entries of a directory. -/
def walkEntries {σ : Type} (fn : WalkDirFunc σ) (name : Bytes) (dirs : List Node) (st : σ) :
    Except String σ :=
  match dirs with
  | [] => .ok st
  | d1 :: rest =>
    match walkDir fn (joinPath name d1.name) d1 st with
    | .error e => .error e
    | .ok st1 => walkEntries fn name rest st1
end

/-- Go's `fs.WalkDir` from the root `"."`. -/
def WalkDir {σ : Type} (fsys : FS) (fn : WalkDirFunc σ) (st : σ) : Except String σ :=
  match fsys.statErr with
  | some e => fn [dot] none (some e) st
  | none => walkDir fn [dot] fsys.root st

/-- The closure that `readMigrations` hands to `fs.WalkDir`. -/
def collectSql : WalkDirFunc (List Node) := fun path d err migrations =>
  match err with
  | some e => .error e
  | none =>
    match d with
    | none => .ok migrations
    | some d =>
      if !d.isDir && Ext path = sqlExt then .ok (migrations ++ [d])
      else .ok migrations

/-- The function `readMigrations` of `migrate.go`. -/
def readMigrations (dir : FS) : Except String (List Node) :=
  WalkDir dir collectSql []

/-- Go's `fs.ReadFile(dir, name)` for a name that is a single path element, as
`DirEntry.Name` gives it: the entry of that name in the root directory is
opened and read. -/
def ReadFile (dir : FS) (name : Bytes) : Except String Bytes :=
  match dir.root with
  | .file _ _ => .error "not a directory"
  | .dir _ _ children =>
    match children.find? (fun d => d.name = name) with
    | none => .error "file does not exist"
    | some (.file _ data) => data
    | some (.dir _ _ _) => .error "is a directory"

/-! ## The database (`database/sql` on SQLite) -/

/-- The database engine behind the handle, over its states `S`. A transaction
has a pending state that starts as the stored state; the outcome of each
driver call is a function of the states it runs on. The text handed to
`tx.Exec` is run as it is, so it may itself end the transaction and reach the
stored state, and a rollback may fail to restore the stored state. -/
structure Engine (S : Type) where
  /-- The call `db.QueryRow("PRAGMA user_version").Scan(&v)`. -/
  queryUserVersion : S → Except String Int
  /-- The error of `db.Begin()`, if it fails. -/
  begin : S → Option String
  /-- The call `tx.Exec(query)` on the pending state: the error, if any, and
  the pending state it leaves. -/
  exec : S → Bytes → Option String × S
  /-- The stored state that the call `tx.Exec(query)` leaves, from the stored
  and the pending state: the stored state as it was, unless the text ends the
  transaction itself (a `COMMIT` in it makes the pending state durable). -/
  execStored : S → S → Bytes → S
  /-- The error of `tx.Commit()` on the pending state, if it fails. -/
  commit : S → Option String
  /-- The stored state a failed commit leaves, from the stored and the
  pending state. -/
  commitFailed : S → S → S
  /-- The stored state that the call `tx.Rollback()` leaves, from the stored
  and the pending state, whether it returns an error or not. -/
  rollback : S → S → S

/-- The calls the program makes on the database and on the migration files,
each with whether it returned without an error; the error of a rollback is
discarded by the program. -/
inductive Event where
  | queryUserVersion (ok : Bool)
  | begin (ok : Bool)
  | readFile (name : Bytes) (ok : Bool)
  | exec (query : Bytes) (ok : Bool)
  | commit (ok : Bool)
  | rollback
  deriving DecidableEq

/-- The database handle during a call of `Run`: the stored state, the pending
state of the transaction `tx` when one is open, and the calls made so far. -/
structure World (S : Type) where
  store : S
  tx : Option S
  trace : List Event

/-- Records a call. -/
def World.log {S : Type} (w : World S) (e : Event) : World S :=
  { w with trace := w.trace ++ [e] }

/-- The call `db.QueryRow("PRAGMA user_version").Scan(&currentVersion)`. -/
def dbQueryUserVersion {S : Type} (E : Engine S) (w : World S) : Except String Int × World S :=
  (E.queryUserVersion w.store, w.log (.queryUserVersion (E.queryUserVersion w.store).isOk))

/-- The call `db.Begin()`. -/
def dbBegin {S : Type} (E : Engine S) (w : World S) : Option String × World S :=
  match E.begin w.store with
  | some e => (some e, w.log (.begin false))
  | none => (none, { w.log (.begin true) with tx := some w.store })

/-- The call `tx.Exec(query)`. -/
def txExec {S : Type} (E : Engine S) (w : World S) (query : Bytes) : Option String × World S :=
  match w.tx with
  | none =>
    (some "sql: transaction has already been committed or rolled back",
      w.log (.exec query false))
  | some pending =>
    ((E.exec pending query).1,
      { store := E.execStored w.store pending query,
        tx := some (E.exec pending query).2,
        trace := w.trace ++ [.exec query (E.exec pending query).1.isNone] })

/-- The call `tx.Commit()`: on success the pending state becomes the stored
state; the transaction is over either way. -/
def txCommit {S : Type} (E : Engine S) (w : World S) : Option String × World S :=
  match w.tx with
  | none =>
    (some "sql: transaction has already been committed or rolled back", w.log (.commit false))
  | some pending =>
    match E.commit pending with
    | some e => (some e, { store := E.commitFailed w.store pending, tx := none,
                           trace := w.trace ++ [.commit false] })
    | none => (none, { store := pending, tx := none, trace := w.trace ++ [.commit true] })

/-- The call `tx.Rollback()`, whose error the program discards: the
transaction is over and the stored state is the one the engine leaves. -/
def txRollback {S : Type} (E : Engine S) (w : World S) : World S :=
  match w.tx with
  | none => w.log .rollback
  | some pending =>
    { store := E.rollback w.store pending, tx := none, trace := w.trace ++ [.rollback] }

/-! ## The program -/

/-- The constant `invalid`. -/
def invalid : Int := -1

/-- The errors `Run` returns: an error of the environment passed on as it is,
or one of the errors `Run` builds with `fmt.Errorf`. -/
inductive Error where
  | underlying (cause : String)
  | noMigrations
  | invalidVersion
  | readFailed (name : Bytes)
  | execFailed (name : Bytes) (cause : String)
  | setVersionFailed (version : Int) (cause : String)
  deriving DecidableEq

/-- The verb `%d` of `fmt.Sprintf` on an `int`. -/
def formatInt : Int → Bytes
  | .ofNat n => (Nat.toDigits 10 n).map Char.toNat
  | .negSucc n => 45 :: (Nat.toDigits 10 (n + 1)).map Char.toNat

/-- The string `fmt.Sprintf("PRAGMA user_version=%d", latestVersion)`. -/
def setUserVersionSql (latestVersion : Int) : Bytes :=
  ascii "PRAGMA user_version=" ++ formatInt latestVersion

/-- The loop of `Run` over `migrations[currentVersion:]`. -/
def applyMigrations {S : Type} (E : Engine S) (dir : FS) :
    List Node → World S → Option Error × World S
  | [], w => (none, w)
  | migration :: rest, w =>
    let name := migration.name
    match ReadFile dir name with
    | .error _ => (some (.readFailed name), txRollback E (w.log (.readFile name false)))
    | .ok sql =>
      match txExec E (w.log (.readFile name true)) sql with
      | (some e, w1) => (some (.execFailed name e), txRollback E w1)
      | (none, w1) => applyMigrations E dir rest w1

/-- What a call of `Run` gives: the two values returned and the database
handle as the call leaves it. -/
structure Result (S : Type) where
  version : Int
  err : Option Error
  world : World S

/-- The function `Run` of `migrate.go`, called on a database whose stored
state is `db`. The lines it writes to the log are left out. -/
def Run {S : Type} (E : Engine S) (dir : FS) (db : S) : Result S :=
  let w0 : World S := ⟨db, none, []⟩
  match readMigrations dir with
  | .error e => ⟨invalid, some (.underlying e), w0⟩
  | .ok migrations =>
    let latestVersion : Int := migrations.length
    if latestVersion = 0 then ⟨invalid, some .noMigrations, w0⟩
    else
      match dbQueryUserVersion E w0 with
      | (.error _, w1) => ⟨invalid, some .invalidVersion, w1⟩
      | (.ok currentVersion, w1) =>
        if currentVersion < 0 ∨ currentVersion > latestVersion then
          ⟨invalid, some .invalidVersion, w1⟩
        else if currentVersion = latestVersion then ⟨latestVersion, none, w1⟩
        else
          match dbBegin E w1 with
          | (some e, w2) => ⟨invalid, some (.underlying e), w2⟩
          | (none, w2) =>
            match applyMigrations E dir (migrations.drop currentVersion.toNat) w2 with
            | (some e, w3) => ⟨invalid, some e, w3⟩
            | (none, w3) =>
              match txExec E w3 (setUserVersionSql latestVersion) with
              | (some e, w4) =>
                ⟨invalid, some (.setVersionFailed latestVersion e), txRollback E w4⟩
              | (none, w4) =>
                match txCommit E w4 with
                | (some e, w5) => ⟨invalid, some (.underlying e), w5⟩
                | (none, w5) => ⟨latestVersion, none, w5⟩

/-! ## Reading the record of a call -/

/-- A call made on the open transaction that leaves it open: the read of a
migration file or an execution. -/
def Event.isStep : Event → Bool
  | .readFile _ _ => true
  | .exec _ _ => true
  | _ => false

/-- A call that ends the transaction: a commit or a rollback. -/
def Event.isClose : Event → Bool
  | .commit _ => true
  | .rollback => true
  | _ => false

/-- A call that returned an error to the program. -/
def Event.failed : Event → Bool
  | .queryUserVersion ok => !ok
  | .begin ok => !ok
  | .readFile _ ok => !ok
  | .exec _ ok => !ok
  | .commit ok => !ok
  | .rollback => false

/-- The texts handed to `tx.Exec`, in the order of the calls. -/
def executed : List Event → List Bytes
  | [] => []
  | .exec query _ :: rest => query :: executed rest
  | _ :: rest => executed rest

/-- The stored and the pending state after the texts of a list are executed
one after the other in a transaction, from a stored and a pending state. -/
def execSeq {S : Type} (E : Engine S) : S × S → List Bytes → S × S
  | states, [] => states
  | states, query :: rest =>
    execSeq E (E.execStored states.1 states.2 query, (E.exec states.2 query).2) rest

/-- The number of calls of `db.Begin`. -/
def beginCalls (trace : List Event) : Nat :=
  trace.countP fun e => match e with
    | .begin _ => true
    | _ => false

/-- The number of transactions opened: the calls of `db.Begin` that
succeeded. -/
def opened (trace : List Event) : Nat := trace.count (.begin true)

/-- The number of calls of `tx.Commit` and `tx.Rollback`. -/
def closeCalls (trace : List Event) : Nat := trace.countP Event.isClose

/-- The errors with which `Run` gives up inside the transaction before the
commit: a migration file cannot be read, a migration is rejected, the version
cannot be written. -/
def Error.beforeCommit : Error → Bool
  | .readFailed _ => true
  | .execFailed _ _ => true
  | .setVersionFailed _ _ => true
  | _ => false

/-- There are migrations to apply: discovery succeeds and the stored version
is read, is not negative and is below the number of files discovered. -/
def hasPending {S : Type} (E : Engine S) (dir : FS) (db : S) : Bool :=
  match readMigrations dir, E.queryUserVersion db with
  | .ok migrations, .ok currentVersion =>
    decide (0 ≤ currentVersion ∧ currentVersion < (migrations.length : Int))
  | _, _ => false

/-- The ways a call of `Run` can go, each with the values returned, the state
of the database handle and the calls made. -/
inductive RunCase {S : Type} (E : Engine S) (dir : FS) (db : S) : Result S → Prop
  | discoveryFailed (e : String) (hread : readMigrations dir = .error e) :
      RunCase E dir db ⟨invalid, some (.underlying e), ⟨db, none, []⟩⟩
  | noMigrations (hread : readMigrations dir = .ok []) :
      RunCase E dir db ⟨invalid, some .noMigrations, ⟨db, none, []⟩⟩
  | invalidVersion (migrations : List Node) (hread : readMigrations dir = .ok migrations)
      (hne : migrations ≠ [])
      (hbad : ∀ v, E.queryUserVersion db = .ok v → v < 0 ∨ v > (migrations.length : Int)) :
      RunCase E dir db ⟨invalid, some .invalidVersion,
        ⟨db, none, [.queryUserVersion (E.queryUserVersion db).isOk]⟩⟩
  | upToDate (migrations : List Node) (hread : readMigrations dir = .ok migrations)
      (hne : migrations ≠ [])
      (hver : E.queryUserVersion db = .ok (migrations.length : Int)) :
      RunCase E dir db ⟨migrations.length, none, ⟨db, none, [.queryUserVersion true]⟩⟩
  | beginFailed (migrations : List Node) (v : Int) (e : String)
      (hread : readMigrations dir = .ok migrations)
      (hver : E.queryUserVersion db = .ok v) (hlo : 0 ≤ v) (hhi : v < (migrations.length : Int))
      (hbegin : E.begin db = some e) :
      RunCase E dir db ⟨invalid, some (.underlying e),
        ⟨db, none, [.queryUserVersion true, .begin false]⟩⟩
  | rolledBack (migrations : List Node) (v : Int) (steps : List Event) (err : Error)
      (hread : readMigrations dir = .ok migrations)
      (hver : E.queryUserVersion db = .ok v) (hlo : 0 ≤ v) (hhi : v < (migrations.length : Int))
      (hbegin : E.begin db = none)
      (hsteps : ∀ e ∈ steps, e.isStep = true) (herr : err.beforeCommit = true) :
      RunCase E dir db ⟨invalid, some err,
        ⟨E.rollback (execSeq E (db, db) (executed steps)).1
            (execSeq E (db, db) (executed steps)).2, none,
          [.queryUserVersion true, .begin true] ++ steps ++ [.rollback]⟩⟩
  | commitFailed (migrations : List Node) (v : Int) (steps : List Event)
      (stored pending : S) (e : String)
      (hread : readMigrations dir = .ok migrations)
      (hver : E.queryUserVersion db = .ok v) (hlo : 0 ≤ v) (hhi : v < (migrations.length : Int))
      (hbegin : E.begin db = none)
      (hsteps : ∀ e ∈ steps, e.isStep = true ∧ e.failed = false)
      (hcommit : E.commit pending = some e) :
      RunCase E dir db ⟨invalid, some (.underlying e),
        ⟨E.commitFailed stored pending, none,
          [.queryUserVersion true, .begin true] ++ steps ++ [.commit false]⟩⟩
  | committed (migrations : List Node) (v : Int) (steps : List Event) (pending : S)
      (hread : readMigrations dir = .ok migrations)
      (hver : E.queryUserVersion db = .ok v) (hlo : 0 ≤ v) (hhi : v < (migrations.length : Int))
      (hbegin : E.begin db = none)
      (hsteps : ∀ e ∈ steps, e.isStep = true ∧ e.failed = false)
      (hwrite : (E.exec pending (setUserVersionSql migrations.length)).1 = none)
      (hcommit : E.commit (E.exec pending (setUserVersionSql migrations.length)).2 = none) :
      RunCase E dir db ⟨migrations.length, none,
        ⟨(E.exec pending (setUserVersionSql migrations.length)).2, none,
          [.queryUserVersion true, .begin true] ++ steps ++
            [.exec (setUserVersionSql migrations.length) true, .commit true]⟩⟩

/-! ## A small database engine for concrete runs -/

/-- The state of the small engine: the value of `user_version` and the
statements applied so far. -/
structure MemDB where
  userVersion : Int
  applied : List Bytes
  deriving DecidableEq

/-- Reads a decimal number. -/
def parseDecimal (digits : Bytes) : Nat :=
  digits.foldl (fun acc c => acc * 10 + (c - 48)) 0

/-- One statement on a state of the small engine: the pragma sets
`user_version`, a statement that starts with `invalid` is rejected, every
other statement is recorded. -/
def memStatement (s : MemDB) (query : Bytes) : Option String × MemDB :=
  if query.take 20 = ascii "PRAGMA user_version=" then
    (none, { s with userVersion := parseDecimal (query.drop 20) })
  else if query.take 7 = ascii "invalid" then (some "SQL logic error", s)
  else (none, { s with applied := s.applied ++ [query] })

/-- An engine that never fails to begin or commit and runs the statements of
`memStatement`. A text that starts with `commit; ` ends the transaction
itself: the pending state becomes the stored state and the rest of the text
runs outside a transaction, after which a rollback has nothing to undo. -/
def memEngine : Engine MemDB where
  queryUserVersion s := .ok s.userVersion
  begin _ := none
  exec s query :=
    if query.take 8 = ascii "commit; " then memStatement s (query.drop 8)
    else memStatement s query
  execStored stored pending query :=
    if query.take 8 = ascii "commit; " then (memStatement pending (query.drop 8)).2
    else stored
  commit _ := none
  commitFailed stored _ := stored
  rollback stored _ := stored

/-! ## What the walk visits -/

mutual
/-- The entries below an entry, at any depth, each once, in the order in
which the walk meets them. -/
def Node.descendants : Node → List Node
  | .file _ _ => []
  | .dir _ _ children => descendantsList children
/-- The entries of a list and all that lies below them. -/
def descendantsList : List Node → List Node
  | [] => []
  | d :: rest => d :: (d.descendants ++ descendantsList rest)
end

mutual
/-- The error of the first directory, in the order of the walk, that cannot be
listed; none when every directory can be. -/
def Node.walkError : Node → Option String
  | .file _ _ => none
  | .dir _ (some e) _ => some e
  | .dir _ none children => walkErrorList children
/-- The first listing error in a list of entries. -/
def walkErrorList : List Node → Option String
  | [] => none
  | d :: rest =>
    match d.walkError with
    | some e => some e
    | none => walkErrorList rest
end

/-- The entries of the tree: all that lies below the root. -/
def FS.entries (fsys : FS) : List Node := fsys.root.descendants

/-- The error that stops the traversal of the tree, if any: the root cannot
be inspected, or some directory cannot be listed. -/
def FS.walkError (fsys : FS) : Option String :=
  match fsys.statErr with
  | some e => some e
  | none => fsys.root.walkError

/-- An entry that is not a directory and whose name ends in `.sql`. -/
def isMigration (d : Node) : Bool := !d.isDir && hasSuffix d.name sqlExt

/-- The relation "the name of `a` is smaller than the name of `b`". -/
def nameLess (a b : Node) : Prop := strLess a.name b.name = true

instance : DecidableRel nameLess := fun a b =>
  inferInstanceAs (Decidable (strLess a.name b.name = true))

/-- What reading the file that an entry describes gives. -/
def Node.content : Node → Except String Bytes
  | .file _ data => data
  | .dir _ _ _ => .error "is a directory"

/-- The calls of the loop of `Run` over files, given by name and content, when
every read and every execution succeeds. -/
def stepsOf : List (Bytes × Bytes) → List Event
  | [] => []
  | (name, sql) :: rest => .readFile name true :: .exec sql true :: stepsOf rest

/-- The pending state after a sequence of statements each of which the engine
accepts; none when it rejects one of them. -/
def execAll {S : Type} (E : Engine S) : S → List Bytes → Option S
  | pending, [] => some pending
  | pending, query :: rest =>
    match (E.exec pending query).1 with
    | some _ => none
    | none => execAll E (E.exec pending query).2 rest

/-- The entries directly in the root directory. -/
def FS.rootEntries (fsys : FS) : List Node :=
  match fsys.root with
  | .file _ _ => []
  | .dir _ _ children => children

mutual
/-- Every directory of the tree lists its entries in strictly ascending order
of their names, as `ReadDir` has to (sorted by filename, no name twice). -/
def Node.listingsSorted : Node → Bool
  | .file _ _ => true
  | .dir _ _ children => decide (children.Pairwise nameLess) && listingsSortedList children
/-- The listings below each entry of a list are sorted. -/
def listingsSortedList : List Node → Bool
  | [] => true
  | d :: rest => d.listingsSorted && listingsSortedList rest
end

/-- The first tree of the test `TestRunSuccess`. -/
def testSuccessFS : FS :=
  ⟨none, .dir [dot] none [
    .file (ascii "0001.sql") (.ok (ascii "create table test(id number)")),
    .file (ascii "0002.sql") (.ok (ascii "insert into test values(1)"))]⟩

/-- A tree without any `.sql` file. -/
def noSqlFS : FS :=
  ⟨none, .dir [dot] none [
    .file (ascii "README") (.ok (ascii "no migrations here")),
    .dir (ascii "dir") none [.file (ascii "notes.txt") (.ok (ascii "nor here"))]]⟩

/-- A tree whose only migration file lies in a subdirectory: `sub/0001.sql`. -/
def nestedFS : FS :=
  ⟨none, .dir [dot] none [
    .dir (ascii "sub") none [
      .file (ascii "0001.sql") (.ok (ascii "create table test(id number)"))]]⟩

/-- A tree with two migration files of the same name, `0001.sql` in the root
and `more/0001.sql` in a subdirectory. -/
def shadowFS : FS :=
  ⟨none, .dir [dot] none [
    .file (ascii "0001.sql") (.ok (ascii "create table if not exists test(id number)")),
    .dir (ascii "more") none [
      .file (ascii "0001.sql") (.ok (ascii "create table if not exists other(id number)"))]]⟩

/-- A tree with a migration file inside a subdirectory: `a/z.sql` and `b.sql`. -/
def nestedOrderFS : FS :=
  ⟨none, .dir [dot] none [
    .dir (ascii "a") none [.file (ascii "z.sql") (.ok (ascii "create table z(id)"))],
    .file (ascii "b.sql") (.ok (ascii "create table b(id)"))]⟩

/-- The tree of the test `TestReadMigrations`. -/
def testReadFS : FS :=
  ⟨none, .dir [dot] none [
    .file (ascii "0001_init.sql") (.ok (ascii "sql")),
    .file (ascii "0002.sql") (.ok (ascii "sql")),
    .dir (ascii "dir") none [],
    .file (ascii "skip") (.ok (ascii "this should be skipped"))]⟩

/-! ## Strings: the extension test and the order on names -/

/-- The suffix test of Go is the suffix relation on lists. -/
theorem hasSuffix_iff (s suffix : Bytes) : hasSuffix s suffix = true ↔ suffix <:+ s := by
  unfold hasSuffix
  rw [List.suffix_iff_eq_drop]
  constructor
  · intro h
    simp only [Bool.and_eq_true, decide_eq_true_eq, beq_iff_eq] at h
    exact h.2.symm
  · intro h
    have hlen : suffix.length ≤ s.length := by
      have := congrArg List.length h
      rw [List.length_drop] at this
      omega
    simp only [Bool.and_eq_true, decide_eq_true_eq, beq_iff_eq]
    exact ⟨hlen, h.symm⟩

/-- The loop of `filepath.Ext` never looks past a separator. -/
theorem extLoop_slash (xs rest suffix : Bytes) :
    extLoop (xs ++ slash :: rest) suffix = extLoop xs suffix := by
  induction xs generalizing suffix with
  | nil => simp [extLoop]
  | cons c xs ih =>
    rw [List.cons_append]
    simp only [extLoop]
    rw [ih]

/-- The loop of `filepath.Ext` returns nothing or more than it has scanned. -/
theorem extLoop_length (xs suffix : Bytes) :
    extLoop xs suffix = [] ∨ suffix.length < (extLoop xs suffix).length := by
  induction xs generalizing suffix with
  | nil => simp [extLoop]
  | cons c xs ih =>
    simp only [extLoop]
    split_ifs
    · simp
    · simp
    · rcases ih (c :: suffix) with h | h
      · exact Or.inl h
      · right
        simp only [List.length_cons] at h
        omega

/-- The extension of a joined path is the extension of its last element. -/
theorem Ext_joinPath (dir name : Bytes) : Ext (joinPath dir name) = Ext name := by
  unfold joinPath Ext
  split_ifs
  · rfl
  · have : (dir ++ slash :: name).reverse = name.reverse ++ slash :: dir.reverse := by simp
    rw [this, extLoop_slash]

/-- The loop of `filepath.Ext` gives `.sql` exactly when the reversed path
starts with `lqs.`. -/
theorem extLoop_eq_sqlExt (r : Bytes) :
    extLoop r [] = sqlExt ↔ [108, 113, 115, 46] <+: r := by
  rcases r with _ | ⟨c1, _ | ⟨c2, _ | ⟨c3, _ | ⟨c4, rest⟩⟩⟩⟩
  · simp [extLoop, sqlExt]
  · simp only [extLoop, sqlExt, slash, dot, List.cons_prefix_cons, List.prefix_nil]
    split_ifs <;> simp
  · simp only [extLoop, sqlExt, slash, dot, List.cons_prefix_cons, List.prefix_nil]
    split_ifs <;> simp
  · simp only [extLoop, sqlExt, slash, dot, List.cons_prefix_cons, List.prefix_nil]
    split_ifs <;> simp
  · simp only [extLoop, sqlExt, slash, dot, List.cons_prefix_cons, List.nil_prefix, and_true]
    split_ifs with h1 h2 h3 h4 h5 h6 h7 h8
    · simp; omega
    · simp; omega
    · simp; omega
    · simp; omega
    · simp; omega
    · simp; omega
    · simp; omega
    · subst h8
      simp only [List.cons.injEq, true_and, and_true]
      omega
    · constructor
      · intro h
        rcases extLoop_length rest [c4, c3, c2, c1] with h0 | h0
        · rw [h0] at h
          simp at h
        · rw [h] at h0
          simp at h0
      · rintro ⟨-, -, -, h⟩
        exact absurd h.symm h8

/-- The test `filepath.Ext(name) == ".sql"` holds exactly when the name ends in
`.sql`. -/
theorem Ext_eq_sqlExt_iff (name : Bytes) : Ext name = sqlExt ↔ hasSuffix name sqlExt = true := by
  rw [hasSuffix_iff, ← List.reverse_prefix]
  exact extLoop_eq_sqlExt name.reverse

/-- The extension test of the walk on the path of an entry is a test on the
name of the entry. -/
theorem select_eq_isMigration (dir : Bytes) (d : Node) :
    (!d.isDir && decide (Ext (joinPath dir d.name) = sqlExt)) = isMigration d := by
  unfold isMigration
  rw [Ext_joinPath]
  congr 1
  rw [Bool.eq_iff_iff, decide_eq_true_eq]
  exact Ext_eq_sqlExt_iff d.name

/-- No string is smaller than itself. -/
theorem strLess_irrefl (a : Bytes) : strLess a a = false := by
  induction a with
  | nil => rfl
  | cons x xs ih => simp [strLess, ih]

/-- The comparison of strings is transitive. -/
theorem strLess_trans : ∀ (a b c : Bytes),
    strLess a b = true → strLess b c = true → strLess a c = true
  | [], [], _, h, _ => by simp [strLess] at h
  | [], _ :: _, [], _, h => by simp [strLess] at h
  | [], _ :: _, _ :: _, _, _ => by simp [strLess]
  | _ :: _, [], _, h, _ => by simp [strLess] at h
  | _ :: _, _ :: _, [], _, h => by simp [strLess] at h
  | x :: xs, y :: ys, z :: zs, h1, h2 => by
    simp only [strLess] at h1 h2 ⊢
    by_cases hxy : x < y
    · by_cases hyz : y < z
      · have : x < z := lt_trans hxy hyz
        simp [this]
      · simp only [hyz, if_false] at h2
        by_cases hzy : z < y
        · simp [hzy] at h2
        · have : y = z := by omega
          subst this
          simp [hxy]
    · simp only [hxy, if_false] at h1
      by_cases hyx : y < x
      · simp [hyx] at h1
      · simp only [hyx, if_false] at h1
        have hxy2 : x = y := by omega
        subst hxy2
        by_cases hyz : x < z
        · simp [hyz]
        · simp only [hyz, if_false] at h2 ⊢
          by_cases hzy : z < x
          · simp [hzy] at h2
          · simp only [hzy, if_false] at h2 ⊢
            exact strLess_trans xs ys zs h1 h2

/-! ## Discovery: what `readMigrations` returns -/

/-- The callback on an entry, without an error: the entry is appended when it
is not a directory and the extension of its path is `.sql`. -/
theorem collectSql_entry (path : Bytes) (d : Node) (acc : List Node) :
    collectSql path (some d) none acc =
      .ok (acc ++ if (!d.isDir && decide (Ext path = sqlExt)) = true then [d] else []) := by
  unfold collectSql
  by_cases h : (!d.isDir && decide (Ext path = sqlExt)) = true
  · simp [h]
  · simp [h]

/-- The callback hands back the error it is given. -/
theorem collectSql_error (path : Bytes) (d : Option Node) (e : String) (acc : List Node) :
    collectSql path d (some e) acc = .error e := rfl

mutual
/-- The walk of one entry: it stops with the first listing error, or else
adds to the entries collected the entry itself, when the callback selects it,
and the migration files below it. -/
theorem walkDir_collectSql : ∀ (d : Node) (path : Bytes) (acc : List Node),
    walkDir collectSql path d acc =
      match d.walkError with
      | some e => .error e
      | none =>
        .ok (acc ++ (if (!d.isDir && decide (Ext path = sqlExt)) = true then [d] else []) ++
          d.descendants.filter isMigration)
  | .file name data, path, acc => by
    rw [walkDir, collectSql_entry]
    simp [Node.walkError, Node.descendants]
  | .dir name (some e) children, path, acc => by
    rw [walkDir, collectSql_entry]
    simp [Node.walkError, collectSql_error]
  | .dir name none children, path, acc => by
    rw [walkDir, collectSql_entry]
    simp only [Node.walkError, Node.descendants]
    rw [walkEntries_collectSql children path]
/-- The walk of the entries of a directory. -/
theorem walkEntries_collectSql : ∀ (dirs : List Node) (path : Bytes) (acc : List Node),
    walkEntries collectSql path dirs acc =
      match walkErrorList dirs with
      | some e => .error e
      | none => .ok (acc ++ (descendantsList dirs).filter isMigration)
  | [], path, acc => by
    simp [walkEntries, walkErrorList, descendantsList]
  | d :: rest, path, acc => by
    rw [walkEntries, walkDir_collectSql d, walkErrorList, descendantsList]
    cases hd : d.walkError with
    | some e => simp
    | none =>
      simp only []
      rw [walkEntries_collectSql rest path, select_eq_isMigration]
      cases hr : walkErrorList rest with
      | some e => simp
      | none =>
        by_cases hm : isMigration d = true
        · simp [hm, List.filter_cons]
        · simp [hm, List.filter_cons]
end

/-- The full behaviour of `readMigrations`: the error that stops the
traversal, or else the migration files among the entries of the tree, in the
order of the walk. -/
theorem readMigrations_eq (dir : FS) :
    readMigrations dir =
      match dir.walkError with
      | some e => .error e
      | none => .ok (dir.entries.filter isMigration) := by
  unfold readMigrations WalkDir FS.walkError FS.entries
  cases hs : dir.statErr with
  | some e => simp [collectSql_error]
  | none =>
    simp only []
    rw [walkDir_collectSql]
    cases hw : dir.root.walkError with
    | some e => rfl
    | none =>
      have hdot : Ext [dot] ≠ sqlExt := by decide
      simp [hdot]

/-- C5: when the traversal of the tree does not fail, `readMigrations` returns
without an error exactly the entries of the tree, at any depth, that are not
directories and whose name ends in `.sql`, each once; every other entry is
left out. -/
theorem readMigrations_selects (dir : FS) (hwalk : dir.walkError = none) :
    readMigrations dir = .ok (dir.entries.filter isMigration) ∧
    ∀ d, d ∈ dir.entries.filter isMigration ↔
      d ∈ dir.entries ∧ d.isDir = false ∧ sqlExt <:+ d.name := by
  constructor
  · rw [readMigrations_eq, hwalk]
  · intro d
    simp [List.mem_filter, isMigration, hasSuffix_iff]

/-- The theorem on a tree with a migration file in a subdirectory. -/
theorem readMigrations_selects_witness :
    readMigrations nestedOrderFS =
      .ok [.file (ascii "z.sql") (.ok (ascii "create table z(id)")),
           .file (ascii "b.sql") (.ok (ascii "create table b(id)"))] :=
  (readMigrations_selects nestedOrderFS rfl).1

/-- Without migration files below the entries of a list, the migration files
of the walk are those of the list itself. -/
theorem filter_descendantsList_flat (children : List Node)
    (hflat : ∀ d ∈ children, ∀ m ∈ d.descendants, isMigration m = false) :
    (descendantsList children).filter isMigration = children.filter isMigration := by
  induction children with
  | nil => simp [descendantsList]
  | cons d rest ih =>
    have hd : d.descendants.filter isMigration = [] := by
      rw [List.filter_eq_nil_iff]
      intro m hm
      simp [hflat d (List.mem_cons_self d rest) m hm]
    have hrest := ih (fun x hx => hflat x (List.mem_cons_of_mem d hx))
    simp only [descendantsList, List.filter_cons, List.filter_append, hd, hrest,
      List.nil_append]

/-- C4, as the program has it: in a tree whose root directory lists its
entries in ascending order of their names and that has no `.sql` file inside
a subdirectory, the sequence `readMigrations` returns is strictly ascending by
name under byte-wise comparison, and no two entries have equal names. -/
theorem readMigrations_flat_ascending (dir : FS) (migrations : List Node)
    (hsorted : dir.rootEntries.Pairwise nameLess)
    (hflat : ∀ d ∈ dir.rootEntries, ∀ m ∈ d.descendants, isMigration m = false)
    (hread : readMigrations dir = .ok migrations) :
    migrations.Pairwise nameLess ∧ (migrations.map Node.name).Nodup := by
  have hms : migrations = dir.rootEntries.filter isMigration := by
    rw [readMigrations_eq] at hread
    cases hw : dir.walkError with
    | some e => rw [hw] at hread; cases hread
    | none =>
      rw [hw] at hread
      injection hread with hread
      rw [← hread]
      unfold FS.entries
      unfold FS.rootEntries at hflat ⊢
      cases hroot : dir.root with
      | file name data => simp [Node.descendants]
      | dir name readErr children =>
        rw [hroot] at hflat
        simp only [Node.descendants]
        exact filter_descendantsList_flat children hflat
  have hpw : migrations.Pairwise nameLess := by
    rw [hms]
    exact hsorted.filter _
  refine ⟨hpw, ?_⟩
  rw [List.Nodup, List.pairwise_map]
  refine hpw.imp ?_
  intro a b hab heq
  unfold nameLess at hab
  rw [heq, strLess_irrefl] at hab
  cases hab

/-- The theorem on the tree of the test `TestReadMigrations`. -/
theorem readMigrations_flat_ascending_witness :
    ([.file (ascii "0001_init.sql") (.ok (ascii "sql")),
      .file (ascii "0002.sql") (.ok (ascii "sql"))] : List Node).Pairwise nameLess ∧
    ([.file (ascii "0001_init.sql") (.ok (ascii "sql")),
      .file (ascii "0002.sql") (.ok (ascii "sql"))].map Node.name).Nodup :=
  readMigrations_flat_ascending testReadFS _ (by decide)
    (by simp [testReadFS, FS.rootEntries, Node.descendants, descendantsList]) rfl

/-- C4 fails as stated: the tree with `a/z.sql` and `b.sql`, whose listings
are all sorted, yields `z.sql` before `b.sql`, and `z.sql` is not smaller than
`b.sql`. -/
theorem readMigrations_nested_not_ascending :
    nestedOrderFS.root.listingsSorted = true ∧
    ∃ migrations, readMigrations nestedOrderFS = .ok migrations ∧
      migrations.map Node.name = [ascii "z.sql", ascii "b.sql"] ∧
      ¬ migrations.Chain' nameLess :=
  ⟨by decide, _, rfl, by decide, fun h => absurd (List.chain'_cons.mp h).1 (by decide)⟩

/-! ## The execution: what `Run` does -/

/-- The texts executed in two records of calls, one after the other. -/
theorem executed_append (a b : List Event) : executed (a ++ b) = executed a ++ executed b := by
  induction a with
  | nil => rfl
  | cons e rest ih => cases e <;> simp [executed, ih]

/-- Executing two lists of texts one after the other. -/
theorem execSeq_append {S : Type} (E : Engine S) (states : S × S) (a b : List Bytes) :
    execSeq E states (a ++ b) = execSeq E (execSeq E states a) b := by
  induction a generalizing states with
  | nil => rfl
  | cons q rest ih =>
    rw [List.cons_append]
    simp only [execSeq]
    exact ih _

/-- An execution on an open transaction. -/
theorem txExec_open {S : Type} (E : Engine S) (w : World S) (pending : S) (query : Bytes)
    (hopen : w.tx = some pending) :
    txExec E w query =
      ((E.exec pending query).1,
        ⟨E.execStored w.store pending query, some (E.exec pending query).2,
          w.trace ++ [.exec query (E.exec pending query).1.isNone]⟩) := by
  unfold txExec
  rw [hopen]

/-- A rollback on an open transaction. -/
theorem txRollback_open {S : Type} (E : Engine S) (w : World S) (pending : S)
    (hopen : w.tx = some pending) :
    txRollback E w = ⟨E.rollback w.store pending, none, w.trace ++ [.rollback]⟩ := by
  unfold txRollback
  rw [hopen]

/-- The loop over the pending migrations on an open transaction: either every
read and execution succeeds and the transaction stays open, or the first
failure is followed by a rollback; the stored and the pending state are those
the executed texts lead to, and after a failure the stored state is the one
the rollback leaves. -/
theorem applyMigrations_shape {S : Type} (E : Engine S) (dir : FS) :
    ∀ (migrations : List Node) (w : World S) (pending : S), w.tx = some pending →
    ∃ steps : List Event, (∀ e ∈ steps, e.isStep = true) ∧
      ((∃ err, (applyMigrations E dir migrations w).1 = some err ∧ err.beforeCommit = true ∧
          (applyMigrations E dir migrations w).2.tx = none ∧
          (applyMigrations E dir migrations w).2.trace = w.trace ++ steps ++ [.rollback] ∧
          (applyMigrations E dir migrations w).2.store =
            E.rollback (execSeq E (w.store, pending) (executed steps)).1
              (execSeq E (w.store, pending) (executed steps)).2) ∨
       ((applyMigrations E dir migrations w).1 = none ∧
          (applyMigrations E dir migrations w).2.tx =
            some (execSeq E (w.store, pending) (executed steps)).2 ∧
          (applyMigrations E dir migrations w).2.store =
            (execSeq E (w.store, pending) (executed steps)).1 ∧
          (applyMigrations E dir migrations w).2.trace = w.trace ++ steps ∧
          ∀ e ∈ steps, e.failed = false))
  | [], w, pending, hopen => by
    refine ⟨[], by simp, Or.inr ⟨rfl, ?_, ?_, ?_, by simp⟩⟩
    · simpa [applyMigrations, executed, execSeq] using hopen
    · simp [applyMigrations, executed, execSeq]
    · simp [applyMigrations]
  | migration :: rest, w, pending, hopen => by
    cases hrd : ReadFile dir migration.name with
    | error e =>
      simp only [applyMigrations, hrd]
      rw [txRollback_open E (w.log (.readFile migration.name false)) pending hopen]
      refine ⟨[.readFile migration.name false], by simp [Event.isStep], Or.inl ?_⟩
      exact ⟨_, rfl, rfl, rfl, by simp [World.log], by simp [World.log, executed, execSeq]⟩
    | ok sql =>
      simp only [applyMigrations, hrd]
      rw [txExec_open E (w.log (.readFile migration.name true)) pending sql hopen]
      cases hex : (E.exec pending sql).1 with
      | some e =>
        simp only []
        rw [txRollback_open E _ (E.exec pending sql).2 rfl]
        refine ⟨[.readFile migration.name true, .exec sql false],
          by simp [Event.isStep], Or.inl ?_⟩
        exact ⟨_, rfl, rfl, rfl, by simp [World.log],
          by simp [World.log, executed, execSeq]⟩
      | none =>
        simp only []
        obtain ⟨steps, hsteps, hcase⟩ :=
          applyMigrations_shape E dir rest
            ⟨E.execStored (w.log (.readFile migration.name true)).store pending sql,
              some (E.exec pending sql).2,
              (w.log (.readFile migration.name true)).trace ++ [.exec sql true]⟩
            (E.exec pending sql).2 rfl
        simp only [World.log, List.append_assoc, List.cons_append, List.nil_append,
          Option.isNone_none] at hcase ⊢
        refine ⟨[.readFile migration.name true, .exec sql true] ++ steps, ?_, ?_⟩
        · intro e he
          simp only [List.mem_append, List.mem_cons, List.mem_singleton, List.not_mem_nil,
            or_false] at he
          rcases he with (he | he) | he
          · subst he; rfl
          · subst he; rfl
          · exact hsteps e he
        · have hexd : executed ([.readFile migration.name true, .exec sql true] ++ steps) =
              sql :: executed steps := by simp [executed]
          rw [hexd]
          simp only [execSeq]
          rcases hcase with ⟨err, h1, h2, h3, h4, h5⟩ | ⟨h1, h2, h3, h4, h5⟩
          · exact Or.inl ⟨err, h1, h2, h3, h4, h5⟩
          · refine Or.inr ⟨h1, h2, h3, h4, ?_⟩
            intro e he
            simp only [List.mem_append, List.mem_cons, List.mem_singleton, List.not_mem_nil,
              or_false] at he
            rcases he with (he | he) | he
            · subst he; rfl
            · subst he; rfl
            · exact h5 e he

/-- Every call of `Run` goes one of the ways of `RunCase`. -/
theorem Run_case {S : Type} (E : Engine S) (dir : FS) (db : S) :
    RunCase E dir db (Run E dir db) := by
  unfold Run
  cases hread : readMigrations dir with
  | error e => exact .discoveryFailed e hread
  | ok migrations =>
    simp only []
    by_cases hlen : (migrations.length : Int) = 0
    · have hnil : migrations = [] := by
        rw [← List.length_eq_zero]
        exact_mod_cast hlen
      subst hnil
      simp only [List.length_nil, Nat.cast_zero, if_true]
      exact .noMigrations hread
    · have hne : migrations ≠ [] := by
        intro h
        subst h
        simp at hlen
      rw [if_neg hlen]
      unfold dbQueryUserVersion
      simp only [World.log, List.nil_append]
      cases hq : E.queryUserVersion db with
      | error e =>
        have h : RunCase E dir db _ := RunCase.invalidVersion migrations hread hne
          (by intro v hv; rw [hq] at hv; cases hv)
        rw [hq] at h
        exact h
      | ok v =>
        have hok : (Except.ok v : Except String Int).isOk = true := rfl
        simp only [hok]
        by_cases hbad : v < 0 ∨ v > (migrations.length : Int)
        · rw [if_pos hbad]
          have h : RunCase E dir db _ := RunCase.invalidVersion migrations hread hne
            (by intro u hu; rw [hq] at hu; cases hu; exact hbad)
          rw [hq, hok] at h
          exact h
        · rw [if_neg hbad]
          by_cases heq : v = (migrations.length : Int)
          · rw [if_pos heq]
            subst heq
            exact .upToDate migrations hread hne hq
          · rw [if_neg heq]
            have hlo : 0 ≤ v := by omega
            have hhi : v < (migrations.length : Int) := by omega
            unfold dbBegin
            simp only [World.log]
            cases hb : E.begin db with
            | some e => exact .beginFailed migrations v e hread hq hlo hhi hb
            | none =>
              simp only []
              obtain ⟨steps, hsteps, hcase⟩ :=
                applyMigrations_shape E dir (migrations.drop v.toNat)
                  ⟨db, some db, [.queryUserVersion true] ++ [.begin true]⟩ db rfl
              generalize applyMigrations E dir (migrations.drop v.toNat)
                ⟨db, some db, [.queryUserVersion true] ++ [.begin true]⟩ = r at hcase ⊢
              obtain ⟨oe, ⟨st, tx, tr⟩⟩ := r
              simp only at hcase ⊢
              rcases hcase with ⟨err, h1, h2, h3, h4, h5⟩ | ⟨h1, h2, h3, h4, h5⟩
              · subst h1 h3 h4 h5
                exact .rolledBack migrations v steps err hread hq hlo hhi hb hsteps h2
              · subst h1 h2 h3 h4
                simp only []
                rw [txExec_open E _ _ _ rfl]
                cases hw : (E.exec (execSeq E (db, db) (executed steps)).2
                    (setUserVersionSql migrations.length)).1 with
                | some e =>
                  simp only []
                  rw [txRollback_open E _ _ rfl]
                  simp only [Option.isNone_some]
                  have h : RunCase E dir db _ := RunCase.rolledBack migrations v
                    (steps ++ [.exec (setUserVersionSql migrations.length) false])
                    (.setVersionFailed migrations.length e) hread hq hlo hhi hb
                    (by
                      intro x hx
                      rcases List.mem_append.mp hx with hx | hx
                      · exact hsteps x hx
                      · rw [List.mem_singleton] at hx
                        subst hx
                        rfl)
                    rfl
                  have hexd : executed (steps ++
                      [.exec (setUserVersionSql migrations.length) false]) =
                      executed steps ++ [setUserVersionSql migrations.length] := by
                    rw [executed_append]
                    rfl
                  rw [hexd, execSeq_append] at h
                  simpa only [List.append_assoc, execSeq] using h
                | none =>
                  simp only [txCommit, Option.isNone_none]
                  have hall : ∀ x ∈ steps ++ [.exec (setUserVersionSql migrations.length) true],
                      x.isStep = true ∧ x.failed = false := by
                    intro x hx
                    rcases List.mem_append.mp hx with hx | hx
                    · exact ⟨hsteps x hx, h5 x hx⟩
                    · rw [List.mem_singleton] at hx
                      subst hx
                      exact ⟨rfl, rfl⟩
                  cases hc : E.commit (E.exec (execSeq E (db, db) (executed steps)).2
                      (setUserVersionSql migrations.length)).2 with
                  | some e =>
                    have h : RunCase E dir db _ := RunCase.commitFailed migrations v _
                      (E.execStored (execSeq E (db, db) (executed steps)).1
                        (execSeq E (db, db) (executed steps)).2
                        (setUserVersionSql migrations.length)) _ e
                      hread hq hlo hhi hb hall hc
                    simpa only [List.append_assoc] using h
                  | none =>
                    have h : RunCase E dir db _ := RunCase.committed migrations v steps
                      (execSeq E (db, db) (executed steps)).2
                      hread hq hlo hhi hb (fun x hx => ⟨hsteps x hx, h5 x hx⟩) hw hc
                    simpa only [List.append_assoc, List.cons_append, List.nil_append] using h

/-- The path of `Run` when the stored version is the number of files. -/
theorem Run_up_to_date {S : Type} (E : Engine S) (dir : FS) (db : S) (migrations : List Node)
    (hread : readMigrations dir = .ok migrations) (hne : migrations ≠ [])
    (hver : E.queryUserVersion db = .ok (migrations.length : Int)) :
    Run E dir db = ⟨migrations.length, none, ⟨db, none, [.queryUserVersion true]⟩⟩ := by
  have hlen : ¬ (migrations.length : Int) = 0 := by
    intro h
    apply hne
    rw [← List.length_eq_zero]
    exact_mod_cast h
  have hpos : ¬ ((migrations.length : Int) < 0 ∨ (migrations.length : Int) > migrations.length) := by
    omega
  unfold Run
  simp only [hread, if_neg hlen, dbQueryUserVersion, hver, if_neg hpos, if_true, World.log,
    List.nil_append]
  rfl

/-- C8: when discovery finds no `.sql` file, `Run` fails with the error "no
migrations to run" and returns -1 without any call on the database: the
version is not read, no transaction is opened, the stored state is the one
before the call. -/
theorem Run_no_migrations {S : Type} (E : Engine S) (dir : FS) (db : S)
    (hread : readMigrations dir = .ok []) :
    Run E dir db = ⟨-1, some .noMigrations, ⟨db, none, []⟩⟩ := by
  unfold Run
  simp only [hread, List.length_nil, Nat.cast_zero, if_true]
  rfl

/-- The theorem on a tree without `.sql` files. -/
theorem Run_no_migrations_witness :
    Run memEngine noSqlFS ⟨0, []⟩ = ⟨-1, some .noMigrations, ⟨⟨0, []⟩, none, []⟩⟩ :=
  Run_no_migrations memEngine noSqlFS ⟨0, []⟩ rfl

/-- C7: when discovery finds n ≥ 1 files and the stored version cannot be
read, is negative or is greater than n, `Run` fails with the invalid-version
error and returns -1; the only call made is the read of the version: no
transaction is opened, no file is read, nothing is executed, and the stored
state is the one before the call. -/
theorem Run_invalid_version {S : Type} (E : Engine S) (dir : FS) (db : S)
    (migrations : List Node) (hread : readMigrations dir = .ok migrations)
    (hcount : 1 ≤ migrations.length)
    (hbad : (∃ e, E.queryUserVersion db = .error e) ∨
      ∃ v, E.queryUserVersion db = .ok v ∧ (v < 0 ∨ (migrations.length : Int) < v)) :
    Run E dir db =
      ⟨-1, some .invalidVersion,
        ⟨db, none, [.queryUserVersion (E.queryUserVersion db).isOk]⟩⟩ := by
  have hlen : ¬ (migrations.length : Int) = 0 := by omega
  unfold Run
  simp only [hread, if_neg hlen, dbQueryUserVersion, World.log, List.nil_append]
  rcases hbad with ⟨e, he⟩ | ⟨v, hv, hrange⟩
  · rw [he]
    rfl
  · rw [hv]
    have : v < 0 ∨ v > (migrations.length : Int) := hrange
    simp only [if_pos this]
    rfl

/-- The theorem on two migration files and the stored version 3. -/
theorem Run_invalid_version_witness :
    Run memEngine testSuccessFS ⟨3, []⟩ =
      ⟨-1, some .invalidVersion, ⟨⟨3, []⟩, none, [.queryUserVersion true]⟩⟩ :=
  Run_invalid_version memEngine testSuccessFS ⟨3, []⟩ _ rfl (by decide)
    (Or.inr ⟨3, rfl, Or.inr (by decide)⟩)

/-- C3: when a first call of `Run` succeeds with version v, on a database
that keeps the version written to it, a second call on the resulting database
with the same migration source returns (v, nil) too; its only call is the
read of the stored version, so it opens no transaction, reads no file,
executes nothing, and leaves the stored state as it found it. -/
theorem Run_twice {S : Type} (E : Engine S) (dir : FS) (db : S) (v : Int)
    (hfirst : (Run E dir db).err = none) (hversion : (Run E dir db).version = v)
    (hkeeps : ∀ pending, (E.exec pending (setUserVersionSql v)).1 = none →
      E.queryUserVersion (E.exec pending (setUserVersionSql v)).2 = .ok v) :
    Run E dir (Run E dir db).world.store =
      ⟨v, none, ⟨(Run E dir db).world.store, none, [.queryUserVersion true]⟩⟩ := by
  have h := Run_case E dir db
  generalize Run E dir db = r at h hfirst hversion ⊢
  cases h with
  | discoveryFailed e hread => cases hfirst
  | noMigrations hread => cases hfirst
  | invalidVersion migrations hread hne hbad => cases hfirst
  | upToDate migrations hread hne hver =>
    simp only at hversion ⊢
    subst hversion
    exact Run_up_to_date E dir db migrations hread hne hver
  | beginFailed migrations v1 e hread hver hlo hhi hbegin => cases hfirst
  | rolledBack migrations v1 steps err1 hread hver hlo hhi hbegin hsteps herr1 => cases hfirst
  | commitFailed migrations v1 steps stored pending e hread hver hlo hhi hbegin hsteps hcommit =>
    cases hfirst
  | committed migrations v1 steps pending hread hver hlo hhi hbegin hsteps hwrite hcommit =>
    simp only at hversion ⊢
    subst hversion
    have hne : migrations ≠ [] := by
      intro h0
      subst h0
      simp only [List.length_nil, Nat.cast_zero] at hhi
      omega
    exact Run_up_to_date E dir _ migrations hread hne (hkeeps pending hwrite)

/-- The theorem on the run of the test `TestRunSuccess`, called again. -/
theorem Run_twice_witness :
    Run memEngine testSuccessFS (Run memEngine testSuccessFS ⟨0, []⟩).world.store =
      ⟨2, none,
        ⟨(Run memEngine testSuccessFS ⟨0, []⟩).world.store, none, [.queryUserVersion true]⟩⟩ :=
  Run_twice memEngine testSuccessFS ⟨0, []⟩ 2 rfl rfl (fun _ _ => rfl)

/-- Reads and executions are no calls of `db.Begin`. -/
theorem beginCalls_steps (steps : List Event) (hsteps : ∀ e ∈ steps, e.isStep = true) :
    beginCalls steps = 0 := by
  unfold beginCalls
  rw [List.countP_eq_zero]
  intro e he
  have := hsteps e he
  cases e <;> simp_all [Event.isStep]

/-- Reads and executions open no transaction. -/
theorem opened_steps (steps : List Event) (hsteps : ∀ e ∈ steps, e.isStep = true) :
    opened steps = 0 := by
  unfold opened
  rw [List.count_eq_zero]
  intro he
  have := hsteps _ he
  simp [Event.isStep] at this

/-- Reads and executions end no transaction. -/
theorem closeCalls_steps (steps : List Event) (hsteps : ∀ e ∈ steps, e.isStep = true) :
    closeCalls steps = 0 := by
  unfold closeCalls
  rw [List.countP_eq_zero]
  intro e he
  have := hsteps e he
  cases e <;> simp_all [Event.isStep, Event.isClose]

/-- The calls of a transaction that was opened: one successful begin, then
reads and executions, then one call that ends it. -/
theorem bracket_counts (steps : List Event) (close : Event)
    (hsteps : ∀ e ∈ steps, e.isStep = true) (hclose : close.isClose = true) :
    beginCalls ([.queryUserVersion true, .begin true] ++ steps ++ [close]) = 1 ∧
    opened ([.queryUserVersion true, .begin true] ++ steps ++ [close]) = 1 ∧
    closeCalls ([.queryUserVersion true, .begin true] ++ steps ++ [close]) = 1 := by
  have h1 := beginCalls_steps steps hsteps
  have h2 := opened_steps steps hsteps
  have h3 := closeCalls_steps steps hsteps
  unfold beginCalls at h1 ⊢
  unfold opened at h2 ⊢
  unfold closeCalls at h3 ⊢
  refine ⟨?_, ?_, ?_⟩
  · rw [List.countP_append, List.countP_append, h1]
    cases close <;> simp_all [Event.isClose, List.countP_cons]
  · rw [List.count_append, List.count_append, h2]
    cases close <;> simp_all [Event.isClose, List.count_cons]
  · rw [List.countP_append, List.countP_append, h3]
    cases close <;> simp_all [Event.isClose, List.countP_cons]

/-- A valid stored version below the number of files means pending
migrations. -/
theorem hasPending_of {S : Type} (E : Engine S) (dir : FS) (db : S) (migrations : List Node)
    (v : Int) (hread : readMigrations dir = .ok migrations)
    (hver : E.queryUserVersion db = .ok v) (hlo : 0 ≤ v) (hhi : v < (migrations.length : Int)) :
    hasPending E dir db = true := by
  unfold hasPending
  rw [hread, hver]
  simp [hlo, hhi]

/-- C9: a call of `Run` calls `db.Begin` once when there are migrations to
apply and not at all on the other paths (discovery failure, empty set,
invalid version, already up to date), so it opens at most one transaction,
and none on those other paths; a transaction it opens is ended by exactly one
call, a commit or a rollback, which is the last call of `Run`, with only
reads and executions in between; no transaction is open when `Run` returns,
whatever the underlying calls give. -/
theorem Run_transaction_bracket {S : Type} (E : Engine S) (dir : FS) (db : S) :
    (Run E dir db).world.tx = none ∧
    beginCalls (Run E dir db).world.trace = (if hasPending E dir db = true then 1 else 0) ∧
    opened (Run E dir db).world.trace ≤ beginCalls (Run E dir db).world.trace ∧
    opened (Run E dir db).world.trace ≤ 1 ∧
    closeCalls (Run E dir db).world.trace = opened (Run E dir db).world.trace ∧
    (opened (Run E dir db).world.trace = 1 →
      ∃ (steps : List Event) (close : Event),
        (Run E dir db).world.trace =
          [.queryUserVersion true, .begin true] ++ steps ++ [close] ∧
        (∀ e ∈ steps, e.isStep = true) ∧ close.isClose = true) := by
  have h := Run_case E dir db
  generalize Run E dir db = r at h ⊢
  cases h with
  | discoveryFailed e hread =>
    have hp : hasPending E dir db = false := by
      unfold hasPending
      rw [hread]
    simp [hp, beginCalls, opened, closeCalls]
  | noMigrations hread =>
    have hp : hasPending E dir db = false := by
      unfold hasPending
      rw [hread]
      cases E.queryUserVersion db with
      | error e => rfl
      | ok v =>
        simp only [List.length_nil, Nat.cast_zero, decide_eq_false_iff_not]
        omega
    simp [hp, beginCalls, opened, closeCalls]
  | invalidVersion migrations hread hne hbad =>
    have hp : hasPending E dir db = false := by
      unfold hasPending
      rw [hread]
      cases hq : E.queryUserVersion db with
      | error e => rfl
      | ok v =>
        have := hbad v hq
        simp only [decide_eq_false_iff_not]
        omega
    simp [hp, beginCalls, opened, closeCalls, Event.isClose]
  | upToDate migrations hread hne hver =>
    have hp : hasPending E dir db = false := by
      unfold hasPending
      rw [hread, hver]
      simp
    simp [hp, beginCalls, opened, closeCalls, Event.isClose]
  | beginFailed migrations v e hread hver hlo hhi hbegin =>
    have hp := hasPending_of E dir db migrations v hread hver hlo hhi
    simp [hp, beginCalls, opened, closeCalls, Event.isClose]
  | rolledBack migrations v steps err1 hread hver hlo hhi hbegin hsteps herr1 =>
    have hp := hasPending_of E dir db migrations v hread hver hlo hhi
    obtain ⟨h1, h2, h3⟩ := bracket_counts steps .rollback hsteps rfl
    simp only [hp, if_true]
    exact ⟨trivial, h1, by omega, by omega, by omega, fun _ => ⟨steps, _, rfl, hsteps, rfl⟩⟩
  | commitFailed migrations v steps stored pending e hread hver hlo hhi hbegin hsteps hcommit =>
    have hp := hasPending_of E dir db migrations v hread hver hlo hhi
    have hs : ∀ x ∈ steps, x.isStep = true := fun x hx => (hsteps x hx).1
    obtain ⟨h1, h2, h3⟩ := bracket_counts steps (.commit false) hs rfl
    simp only [hp, if_true]
    exact ⟨trivial, h1, by omega, by omega, by omega, fun _ => ⟨steps, _, rfl, hs, rfl⟩⟩
  | committed migrations v steps pending hread hver hlo hhi hbegin hsteps hwrite hcommit =>
    have hp := hasPending_of E dir db migrations v hread hver hlo hhi
    have hs : ∀ x ∈ steps ++ [.exec (setUserVersionSql migrations.length) true],
        x.isStep = true := by
      intro x hx
      rcases List.mem_append.mp hx with hx | hx
      · exact (hsteps x hx).1
      · rw [List.mem_singleton] at hx
        subst hx
        rfl
    obtain ⟨h1, h2, h3⟩ := bracket_counts _ (.commit true) hs rfl
    have htrace : [Event.queryUserVersion true, Event.begin true] ++ steps ++
        [Event.exec (setUserVersionSql migrations.length) true, Event.commit true] =
        [Event.queryUserVersion true, Event.begin true] ++
          (steps ++ [Event.exec (setUserVersionSql migrations.length) true]) ++
          [Event.commit true] := by simp
    simp only [hp, if_true, htrace]
    exact ⟨trivial, h1, by omega, by omega, by omega, fun _ => ⟨_, _, rfl, hs, rfl⟩⟩

/-- C6: `Run` returns -1 exactly when it returns an error. It returns no
error only when discovery succeeded with at least one file, the stored version
was read and lies between 0 and the number of files, and no call it made
failed; the version returned is then the number of files discovered. So
every failure (of discovery, an empty set, an invalid version, a failed begin,
read, execution, version write or commit) gives -1 with an error. -/
theorem Run_sentinel_iff_error {S : Type} (E : Engine S) (dir : FS) (db : S) :
    ((Run E dir db).version = -1 ↔ (Run E dir db).err ≠ none) ∧
    ((Run E dir db).err = none →
      ∃ migrations : List Node, readMigrations dir = .ok migrations ∧
        1 ≤ migrations.length ∧ (Run E dir db).version = migrations.length ∧
        (∃ v, E.queryUserVersion db = .ok v ∧ 0 ≤ v ∧ v ≤ (migrations.length : Int)) ∧
        ∀ e ∈ (Run E dir db).world.trace, e.failed = false) := by
  have h := Run_case E dir db
  generalize Run E dir db = r at h ⊢
  cases h with
  | discoveryFailed e hread => simp [invalid]
  | noMigrations hread => simp [invalid]
  | invalidVersion migrations hread hne hbad => simp [invalid]
  | upToDate migrations hread hne hver =>
    have hpos : 1 ≤ migrations.length := List.length_pos.mpr hne
    refine ⟨?_, fun _ => ⟨migrations, hread, hpos, rfl, ⟨_, hver, by omega, le_refl _⟩, ?_⟩⟩
    · simp only [ne_eq, not_true_eq_false, iff_false]
      omega
    · simp [Event.failed]
  | beginFailed migrations v e hread hver hlo hhi hbegin => simp [invalid]
  | rolledBack migrations v steps err1 hread hver hlo hhi hbegin hsteps herr1 => simp [invalid]
  | commitFailed migrations v steps stored pending e hread hver hlo hhi hbegin hsteps hcommit =>
    simp [invalid]
  | committed migrations v steps pending hread hver hlo hhi hbegin hsteps hwrite hcommit =>
    have hpos : 1 ≤ migrations.length := by omega
    refine ⟨?_, fun _ => ⟨migrations, hread, hpos, rfl, ⟨v, hver, hlo, by omega⟩, ?_⟩⟩
    · simp only [ne_eq, not_true_eq_false, iff_false]
      omega
    · intro x hx
      simp only [List.mem_append, List.mem_cons, List.mem_singleton, List.not_mem_nil,
        or_false] at hx
      rcases hx with (hx | hx) | hx
      · rcases hx with hx | hx <;> subst hx <;> rfl
      · exact (hsteps x hx).2
      · rcases hx with hx | hx <;> subst hx <;> rfl

/-- C10 fails on the code: for the tree with the single file `sub/0001.sql`
and a database at version 0, discovery selects that file, and `Run` then
reads `0001.sql` in the root, which does not exist: the migration is not
loaded, the transaction is rolled back and `Run` returns -1. -/
theorem Run_reads_nested_file_by_name :
    readMigrations nestedFS =
      .ok [.file (ascii "0001.sql") (.ok (ascii "create table test(id number)"))] ∧
    ReadFile nestedFS (ascii "0001.sql") = .error "file does not exist" ∧
    Run memEngine nestedFS ⟨0, []⟩ =
      ⟨-1, some (.readFailed (ascii "0001.sql")),
        ⟨⟨0, []⟩, none,
          [.queryUserVersion true, .begin true, .readFile (ascii "0001.sql") false,
            .rollback]⟩⟩ :=
  ⟨rfl, rfl, rfl⟩

/-- C1 fails on the code: for the tree with `0001.sql` and `more/0001.sql` and
a database at version 0, discovery finds the two files, every call succeeds
and `Run` returns (2, nil), yet the content of the root file is executed
twice and the content of `more/0001.sql` never. -/
theorem Run_executes_root_file_twice :
    (readMigrations shadowFS).toOption.map (fun ms => ms.map Node.content) =
      some [.ok (ascii "create table if not exists test(id number)"),
            .ok (ascii "create table if not exists other(id number)")] ∧
    Run memEngine shadowFS ⟨0, []⟩ =
      ⟨2, none,
        ⟨⟨2, [ascii "create table if not exists test(id number)",
              ascii "create table if not exists test(id number)"]⟩, none,
          [.queryUserVersion true, .begin true,
            .readFile (ascii "0001.sql") true,
            .exec (ascii "create table if not exists test(id number)") true,
            .readFile (ascii "0001.sql") true,
            .exec (ascii "create table if not exists test(id number)") true,
            .exec (ascii "PRAGMA user_version=2") true, .commit true]⟩⟩ :=
  ⟨rfl, rfl⟩

/-! ## The successful run in full -/

/-- When every read and every execution succeeds, the loop of `Run` reads and
executes the files one after the other and leaves the transaction open. -/
theorem applyMigrations_ok {S : Type} (E : Engine S) (dir : FS) :
    ∀ (migrations : List Node) (contents : List Bytes) (w : World S) (pending pending1 : S),
    w.tx = some pending →
    migrations.map (fun m => ReadFile dir m.name) = contents.map Except.ok →
    execAll E pending contents = some pending1 →
    applyMigrations E dir migrations w =
      (none, ⟨(execSeq E (w.store, pending) contents).1, some pending1,
        w.trace ++ stepsOf ((migrations.map Node.name).zip contents)⟩)
  | [], contents, w, pending, pending1, hopen, hreads, hexec => by
    cases contents with
    | nil =>
      simp only [execAll, Option.some.injEq] at hexec
      subst hexec
      simp [applyMigrations, stepsOf, execSeq, ← hopen]
    | cons c cs => simp at hreads
  | m :: rest, contents, w, pending, pending1, hopen, hreads, hexec => by
    cases contents with
    | nil => simp at hreads
    | cons c cs =>
      simp only [List.map_cons, List.cons.injEq] at hreads
      obtain ⟨hm, hrest⟩ := hreads
      simp only [execAll] at hexec
      cases hx : (E.exec pending c).1 with
      | some e => simp [hx] at hexec
      | none =>
        simp only [hx] at hexec
        simp only [applyMigrations, hm]
        rw [txExec_open E (w.log (.readFile m.name true)) pending c hopen]
        simp only [hx, Option.isNone_none]
        rw [applyMigrations_ok E dir rest cs _ (E.exec pending c).2 pending1 rfl hrest hexec]
        simp [World.log, stepsOf, List.zip, execSeq]

/-- The successful run: with c the stored version and n the number of files
discovered, 0 ≤ c < n, when the transaction begins, every read returns the
content of the file discovered, every execution, the version write and the
commit succeed, `Run` reads and executes the files at the positions c to
n - 1 in their order, each once, writes the version n, commits and returns
(n, nil); the stored state is then the pending state after the write. -/
theorem Run_applies_pending {S : Type} (E : Engine S) (dir : FS) (db : S)
    (migrations : List Node) (c : Int) (contents : List Bytes) (pending : S)
    (hread : readMigrations dir = .ok migrations)
    (hver : E.queryUserVersion db = .ok c) (hlo : 0 ≤ c) (hhi : c < (migrations.length : Int))
    (hbegin : E.begin db = none)
    (hsame : ∀ m ∈ migrations.drop c.toNat, ReadFile dir m.name = m.content)
    (hreads : (migrations.drop c.toNat).map Node.content = contents.map Except.ok)
    (hexec : execAll E db contents = some pending)
    (hwrite : (E.exec pending (setUserVersionSql migrations.length)).1 = none)
    (hcommit : E.commit (E.exec pending (setUserVersionSql migrations.length)).2 = none) :
    Run E dir db =
      ⟨migrations.length, none,
        ⟨(E.exec pending (setUserVersionSql migrations.length)).2, none,
          [.queryUserVersion true, .begin true] ++
            stepsOf (((migrations.drop c.toNat).map Node.name).zip contents) ++
            [.exec (setUserVersionSql migrations.length) true, .commit true]⟩⟩ := by
  have hlen : ¬ (migrations.length : Int) = 0 := by omega
  have hbad : ¬ (c < 0 ∨ c > (migrations.length : Int)) := by omega
  have hneq : ¬ c = (migrations.length : Int) := by omega
  have hreads1 : (migrations.drop c.toNat).map (fun m => ReadFile dir m.name) =
      contents.map Except.ok := by
    rw [← hreads]
    exact List.map_congr_left hsame
  have happly := applyMigrations_ok E dir (migrations.drop c.toNat) contents
    ⟨db, some db, [.queryUserVersion true, .begin true]⟩ db pending rfl hreads1 hexec
  have hok : (Except.ok c : Except String Int).isOk = true := rfl
  unfold Run
  simp only [hread, if_neg hlen, dbQueryUserVersion, hver, if_neg hbad, if_neg hneq, dbBegin,
    hbegin, World.log, List.nil_append, hok, List.singleton_append, happly]
  rw [txExec_open E _ pending _ rfl]
  simp only [hwrite, txCommit, hcommit, Option.isNone_none, List.append_assoc,
    List.singleton_append]

/-- In a root directory listed in ascending order of names, reading the name
of an entry of the root that is a file gives the content of that entry. -/
theorem ReadFile_rootEntry (dir : FS) (m : Node)
    (hsorted : dir.rootEntries.Pairwise nameLess) (hm : m ∈ dir.rootEntries) :
    ReadFile dir m.name = m.content := by
  unfold ReadFile
  unfold FS.rootEntries at hsorted hm
  cases hroot : dir.root with
  | file name data => rw [hroot] at hm; cases hm
  | dir name readErr children =>
    rw [hroot] at hsorted hm
    have hs : children.Pairwise nameLess := hsorted
    have hmem : m ∈ children := hm
    clear hsorted hm hroot
    simp only []
    have hfind : children.find? (fun d => decide (d.name = m.name)) = some m := by
      induction children with
      | nil => cases hmem
      | cons d rest ih =>
        rw [List.pairwise_cons] at hs
        by_cases hd : d.name = m.name
        · rcases List.mem_cons.mp hmem with h | h
          · subst h
            simp
          · have hlt := hs.1 m h
            unfold nameLess at hlt
            rw [hd, strLess_irrefl] at hlt
            cases hlt
        · rcases List.mem_cons.mp hmem with h | h
          · subst h
            exact absurd rfl hd
          · rw [List.find?_cons_of_neg _ (by simpa using hd)]
            exact ih hs.2 h
    rw [hfind]
    cases m <;> rfl

/-- The first call of the test `TestRunSuccess`: from version 0 both files are
read and executed in order, the version 2 is written and committed. -/
theorem Run_applies_pending_testSuccess :
    Run memEngine testSuccessFS ⟨0, []⟩ =
      ⟨2, none,
        ⟨⟨2, [ascii "create table test(id number)", ascii "insert into test values(1)"]⟩,
          none,
          [.queryUserVersion true, .begin true,
            .readFile (ascii "0001.sql") true,
            .exec (ascii "create table test(id number)") true,
            .readFile (ascii "0002.sql") true,
            .exec (ascii "insert into test values(1)") true,
            .exec (ascii "PRAGMA user_version=2") true, .commit true]⟩⟩ :=
  Run_applies_pending memEngine testSuccessFS ⟨0, []⟩ _ 0
    [ascii "create table test(id number)", ascii "insert into test values(1)"]
    ⟨0, [ascii "create table test(id number)", ascii "insert into test values(1)"]⟩
    rfl rfl (by decide) (by decide) rfl
    (fun m hm => ReadFile_rootEntry testSuccessFS m (by decide) hm)
    rfl rfl rfl rfl

end Migrator
